import Mathlib

/-!
# Verification of the LabWork03 tensor-compression codec

Shallow embedding of the two C++ tools of the repository:

* `src/advcodec.cpp` — the lossy pipeline (`LLMCodec`): 8-bit quantization,
  signed-magnitude delta coding, byte-oriented RLE, float16 bit conversion,
  and its binary container.
* `src/codec_4.cpp` — the lossless pipeline (`OptimizedLLMCodec`): XOR-delta
  over 32-bit words, an external entropy backend (kept abstract), float16 bit
  conversion, and its binary container.

Bytes and machine words are modelled as `ℕ` with explicit bounds / `% 2^w`
where the C++ code relies on fixed-width wraparound.  The `while` loops of the
RLE codec are modelled with an explicit iteration budget (each iteration of
the source loop consumes at least one input element, so a budget equal to the
input length is exact).  Float arithmetic in the quantizer is idealized as
exact rational arithmetic over `ℚ`; all float16 conversions in the source are
pure bit manipulations and are modelled exactly on bit patterns.
-/

namespace LabWork03

/-! ## Little-endian serialization helpers

`std::memcpy` between byte buffers and `uint64_t`/`uint32_t`/`uint16_t`
values on the little-endian target is byte-for-byte little-endian
(de)serialization. -/

/-- Interpret a byte list as a little-endian unsigned integer
(`std::memcpy(&x, bytes, k)`). -/
def leParse (bytes : List ℕ) : ℕ :=
  bytes.foldr (fun b acc => b + 256 * acc) 0

/-- Serialize the low `k` bytes of `n` in little-endian order
(`std::memcpy(bytes, &x, k)`; a `k`-byte field stores `n % 2^(8k)`). -/
def leSer : ℕ → ℕ → List ℕ
  | 0, _ => []
  | k + 1, n => n % 256 :: leSer k (n / 256)

/-- Reinterpret a byte buffer as `uint16_t` values (little-endian pairs);
a trailing odd byte is dropped, as in `f16_bytes.size() / 2`. -/
def bytesToU16 : List ℕ → List ℕ
  | b0 :: b1 :: t => (b0 + 256 * b1) :: bytesToU16 t
  | _ => []

/-- Reinterpret a byte buffer as `uint32_t` words (little-endian quadruples);
a trailing partial word is dropped, as in `tensor_bytes.size() / 4`. -/
def bytesToWords : List ℕ → List ℕ
  | b0 :: b1 :: b2 :: b3 :: t =>
      (b0 + 256 * b1 + 65536 * b2 + 16777216 * b3) :: bytesToWords t
  | _ => []

/-- Serialize `uint32_t` words back to little-endian bytes. -/
def wordsToBytes (ws : List ℕ) : List ℕ :=
  ws.flatMap fun w => leSer 4 w

/-! ## XOR-delta transform (`codec_4.cpp`, lines 37–49)

`xor_delta_encode_inplace_u32` iterates from the last element down to index
1 and XORs each word with its (still unmodified) predecessor, so the encoded
word at index `i ≥ 1` is `w[i] ^^^ w[i-1]` with `w` the original sequence.
`xor_delta_decode_inplace_u32` iterates upward and XORs each word with the
already-decoded predecessor. -/

/-- One downward-iteration step of the encoder: each output word is the
current word XORed with the original predecessor `prev`. -/
def xorEncGo (prev : ℕ) : List ℕ → List ℕ
  | [] => []
  | x :: xs => (x ^^^ prev) :: xorEncGo x xs

/-- `xor_delta_encode_inplace_u32`: word 0 is kept, word `i ≥ 1` becomes
`w[i] ^^^ w[i-1]` (the loop runs from high index to low, so the XOR always
sees the predecessor's original value). -/
def xor_delta_encode_u32 : List ℕ → List ℕ
  | [] => []
  | a :: rest => a :: xorEncGo a rest

/-- One upward-iteration step of the decoder: each word is XORed with the
already-decoded predecessor `prev`. -/
def xorDecGo (prev : ℕ) : List ℕ → List ℕ
  | [] => []
  | x :: xs => (x ^^^ prev) :: xorDecGo (x ^^^ prev) xs

/-- `xor_delta_decode_inplace_u32`: word 0 is kept, each later word is XORed
with the decoded predecessor. -/
def xor_delta_decode_u32 : List ℕ → List ℕ
  | [] => []
  | a :: rest => a :: xorDecGo a rest

theorem xorDecGo_xorEncGo (prev : ℕ) (l : List ℕ) :
    xorDecGo prev (xorEncGo prev l) = l := by
  induction l generalizing prev with
  | nil => rfl
  | cons x xs ih =>
      simp only [xorEncGo, xorDecGo, Nat.xor_cancel_right]
      exact congrArg (x :: ·) (ih x)

/-- **C1.** For every sequence of 32-bit words, XOR-delta decode inverts
XOR-delta encode exactly (including the empty and singleton sequences, for
which both loops return immediately). -/
theorem xor_delta_roundtrip (w : List ℕ) (hw : ∀ x ∈ w, x < 2 ^ 32) :
    xor_delta_decode_u32 (xor_delta_encode_u32 w) = w := by
  cases w with
  | nil => rfl
  | cons a rest =>
      simp only [xor_delta_encode_u32, xor_delta_decode_u32]
      exact congrArg (a :: ·) (xorDecGo_xorEncGo a rest)

/-- Witness for C1 at the concrete word sequence `[1, 4294967295, 7]`. -/
theorem xor_delta_roundtrip_witness :
    xor_delta_decode_u32 (xor_delta_encode_u32 [1, 4294967295, 7]) =
      [1, 4294967295, 7] :=
  xor_delta_roundtrip [1, 4294967295, 7] (by decide)

/-! ## Signed-magnitude delta coder (`advcodec.cpp`, lines 97–136)

`delta_encode_varbyte` emits the first byte verbatim and then, per position,
`sign_bit(0x80) | (abs(delta) & 0x7F)` where `delta = data[i] - data[i-1]`
as `int`s.  `delta_decode_varbyte` accumulates `prev + delta` per position,
cast back to `uint8_t` (i.e. mod 256). -/

/-- Encoding of one delta byte: `delta = cur - prev` as signed ints,
`abs_delta` is the `uint8_t` conversion of `std::abs(delta)` (mod 256), and
the emitted byte is `sign_bit | (abs_delta & 0x7F)`. -/
def encByte (prev cur : ℕ) : ℕ :=
  let delta : ℤ := (cur : ℤ) - (prev : ℤ)
  let abs_delta : ℕ := delta.natAbs % 256
  let sign_bit : ℕ := if delta < 0 then 128 else 0
  sign_bit ||| (abs_delta &&& 127)

/-- Decoding of one delta byte: split sign bit and 7-bit magnitude, add the
signed delta to `prev` and convert to `uint8_t` (mod 256). -/
def decByte (prev e : ℕ) : ℕ :=
  let sign_bit : ℕ := e &&& 128
  let magnitude : ℕ := e &&& 127
  let delta : ℤ := if sign_bit ≠ 0 then -(magnitude : ℤ) else (magnitude : ℤ)
  (((prev : ℤ) + delta) % 256).toNat

/-- The encoder loop over positions `1..`: `prev` is `data[i-1]`. -/
def deltaEncGo (prev : ℕ) : List ℕ → List ℕ
  | [] => []
  | c :: cs => encByte prev c :: deltaEncGo c cs

/-- `delta_encode_varbyte`: first byte verbatim, then delta bytes. -/
def delta_encode_varbyte : List ℕ → List ℕ
  | [] => []
  | d0 :: rest => d0 :: deltaEncGo d0 rest

/-- The decoder loop over positions `1..`: `prev` is `decoded.back()`. -/
def deltaDecGo (prev : ℕ) : List ℕ → List ℕ
  | [] => []
  | e :: es => decByte prev e :: deltaDecGo (decByte prev e) es

/-- `delta_decode_varbyte`: first byte verbatim, then accumulated deltas. -/
def delta_decode_varbyte : List ℕ → List ℕ
  | [] => []
  | e0 :: rest => e0 :: deltaDecGo e0 rest

/-- Bytes below 128 have a clear sign bit. -/
theorem and_128_of_lt {a : ℕ} (h : a < 128) : a &&& 128 = 0 := by
  have h7 : a &&& 2 ^ 7 = (a.testBit 7).toNat * 2 ^ 7 := Nat.and_two_pow a 7
  have ht : a.testBit 7 = false := by
    simp only [Nat.testBit_to_div_mod]
    have hdiv : a / 2 ^ 7 = 0 := Nat.div_eq_of_lt h
    norm_num at hdiv ⊢
    omega
  simpa [ht] using h7

/-- Bytes in `[128, 256)` have a set sign bit. -/
theorem and_128_of_ge {a : ℕ} (h1 : 128 ≤ a) (h2 : a < 256) : a &&& 128 = 128 := by
  have h7 : a &&& 2 ^ 7 = (a.testBit 7).toNat * 2 ^ 7 := Nat.and_two_pow a 7
  have ht : a.testBit 7 = true := by
    simp only [Nat.testBit_to_div_mod]
    norm_num
    omega
  simpa [ht] using h7

/-- The 7-bit mask is `% 128`. -/
theorem and_127_eq_mod (a : ℕ) : a &&& 127 = a % 128 := by
  have := Nat.and_pow_two_sub_one_eq_mod a 7
  norm_num at this
  exact this

/-- Setting the sign bit over a 7-bit magnitude is addition. -/
theorem or_128_eq_add {a : ℕ} (h : a < 128) : 128 ||| a = 128 + a := by
  have := Nat.mul_add_lt_is_or (show a < 2 ^ 7 by omega) 1
  norm_num at this
  omega

/-- Round trip of a single delta byte under the `|delta| ≤ 127` precondition. -/
theorem decByte_encByte {p c : ℕ} (hp : p < 256) (hc : c < 256)
    (hd : ((c : ℤ) - (p : ℤ)).natAbs ≤ 127) : decByte p (encByte p c) = c := by
  unfold encByte decByte
  rcases le_or_lt (p : ℤ) (c : ℤ) with h | h
  · have hnn : ¬ ((c : ℤ) - (p : ℤ) < 0) := by omega
    have habs : ((c : ℤ) - (p : ℤ)).natAbs = c - p := by omega
    have hle : c - p ≤ 127 := by omega
    simp only [if_neg hnn, habs]
    have hm : (c - p) % 256 = c - p := Nat.mod_eq_of_lt (by omega)
    rw [hm, and_127_eq_mod, Nat.mod_eq_of_lt (by omega), Nat.zero_or,
      and_128_of_lt (by omega), and_127_eq_mod, Nat.mod_eq_of_lt (by omega)]
    simp only [ne_eq, not_true_eq_false, if_neg, not_false_eq_true, if_pos]
    have : ((p : ℤ) + ((c : ℤ) - (p : ℤ)).natAbs) % 256 = (c : ℤ) := by
      rw [habs]; omega
    rw [habs] at this
    omega
  · have hneg : (c : ℤ) - (p : ℤ) < 0 := by omega
    have habs : ((c : ℤ) - (p : ℤ)).natAbs = p - c := by omega
    have hle : p - c ≤ 127 := by omega
    simp only [if_pos hneg, habs]
    have hm : (p - c) % 256 = p - c := Nat.mod_eq_of_lt (by omega)
    rw [hm, and_127_eq_mod, Nat.mod_eq_of_lt (by omega),
      or_128_eq_add (by omega),
      and_128_of_ge (by omega) (by omega),
      and_127_eq_mod]
    have h127 : (128 + (p - c)) % 128 = p - c := by omega
    rw [h127]
    simp only [ne_eq, OfNat.ofNat_ne_zero, not_false_eq_true, if_pos]
    omega

/-- The decoder loop inverts the encoder loop when every step's delta has
magnitude at most 127. -/
theorem deltaDecGo_deltaEncGo (prev : ℕ) (cs : List ℕ) (hp : prev < 256)
    (hb : ∀ c ∈ cs, c < 256)
    (hc : List.Chain' (fun a b : ℕ => ((b : ℤ) - (a : ℤ)).natAbs ≤ 127) (prev :: cs)) :
    deltaDecGo prev (deltaEncGo prev cs) = cs := by
  induction cs generalizing prev with
  | nil => rfl
  | cons c cs ih =>
      rw [List.chain'_cons] at hc
      have hcb : c < 256 := hb c (by simp)
      have h1 : decByte prev (encByte prev c) = c :=
        decByte_encByte hp hcb hc.1
      simp only [deltaEncGo, deltaDecGo, h1]
      exact congrArg (c :: ·)
        (ih c hcb (fun x hx => hb x (by simp [hx])) hc.2)

/-- **C4.** For every non-empty byte sequence in which every adjacent pair
differs by at most 127 in magnitude (as signed integers), the varbyte delta
decoder inverts the encoder.  The magnitude bound is a hypothesis on the
input domain, not enforced by the transform. -/
theorem delta_varbyte_roundtrip (x : List ℕ) (hne : x ≠ [])
    (hbyte : ∀ b ∈ x, b < 256)
    (hdelta : List.Chain' (fun a b : ℕ => ((b : ℤ) - (a : ℤ)).natAbs ≤ 127) x) :
    delta_decode_varbyte (delta_encode_varbyte x) = x := by
  cases x with
  | nil => rfl
  | cons d0 rest =>
      simp only [delta_encode_varbyte, delta_decode_varbyte]
      exact congrArg (d0 :: ·)
        (deltaDecGo_deltaEncGo d0 rest (hbyte d0 (by simp))
          (fun b hb => hbyte b (by simp [hb])) hdelta)

/-- Witness for C4 at the concrete byte sequence `[10, 5, 100]`
(deltas `-5` and `95`, both of magnitude at most 127). -/
theorem delta_varbyte_roundtrip_witness :
    delta_decode_varbyte (delta_encode_varbyte [10, 5, 100]) = [10, 5, 100] :=
  delta_varbyte_roundtrip [10, 5, 100] (by decide) (by decide)
    (by simp only [List.chain'_cons, List.chain'_singleton, and_true]
        exact ⟨by decide, by decide⟩)

/-! ## Byte-oriented RLE codec (`advcodec.cpp`, lines 139–207)

`compress_rle` scans the input: a run of `≥ 4` equal bytes (capped at 255)
is emitted as `[0xFF, length, value]`; otherwise literal bytes are
accumulated (stopping before a run of length `≥ 4`, or after 255 literals)
and emitted as `[length, literal bytes...]`.  `decompress_rle` treats a
leading `0xFF` with at least two following bytes as a run record, any other
leading byte as a literal length, and silently stops on truncated records.
Each iteration of both `while` loops consumes at least one element of its
input, so the loops are modelled with an explicit iteration budget equal to
the input length. -/

/-- Number of leading elements of `l` equal to `v` (the run/peek scans
`while data[i + k] == data[i]`). -/
def countLead (v : ℕ) : List ℕ → ℕ
  | [] => 0
  | x :: xs => if x = v then countLead v xs + 1 else 0

/-- The literal-accumulation loop: starting at the current position, consume
bytes while the lookahead run (`peek_run`, capped at 4) stays below 4 and the
literal budget (255 at the top call) is not exhausted.  Returns
`lit_length`. -/
def litLen : List ℕ → ℕ → ℕ
  | [], _ => 0
  | _ :: _, 0 => 0
  | x :: xs, budget + 1 =>
      if 4 ≤ min (1 + countLead x xs) 4 then 0
      else 1 + litLen xs budget

/-- The `compress_rle` main loop with an explicit iteration budget.
`run_length` is the capped run scan `min (1 + countLead) 255`. -/
def rleEncodeF : ℕ → List ℕ → List ℕ
  | 0, _ => []
  | _ + 1, [] => []
  | fuel + 1, x :: xs =>
      let run_length := min (1 + countLead x xs) 255
      if 4 ≤ run_length then
        255 :: run_length :: x :: rleEncodeF fuel (List.drop run_length (x :: xs))
      else
        let lit_length := litLen (x :: xs) 255
        lit_length :: (List.take lit_length (x :: xs) ++
          rleEncodeF fuel (List.drop lit_length (x :: xs)))

/-- `compress_rle`: every loop iteration consumes at least one input byte,
so a budget of `data.length` is exact. -/
def compress_rle (data : List ℕ) : List ℕ :=
  rleEncodeF data.length data

/-- The `decompress_rle` main loop with an explicit iteration budget: a
leading `0xFF` with `i + 2 < size` (at least two following bytes) is a run
record; otherwise the leading byte is a literal length, honoured only when
`i + length < size` (at least `length` following bytes), else the loop
breaks. -/
def rleDecodeF : ℕ → List ℕ → List ℕ
  | 0, _ => []
  | _ + 1, [] => []
  | fuel + 1, c :: rest =>
      if c = 255 ∧ 2 ≤ rest.length then
        List.replicate (rest.getD 0 0) (rest.getD 1 0) ++
          rleDecodeF fuel (rest.drop 2)
      else if c ≤ rest.length then
        List.take c rest ++ rleDecodeF fuel (List.drop c rest)
      else []

/-- `decompress_rle`: every loop iteration consumes at least one compressed
byte, so a budget of `compressed.length` is exact. -/
def decompress_rle (compressed : List ℕ) : List ℕ :=
  rleDecodeF compressed.length compressed

/-- Whether the encoder, run on `data`, ever emits a literal segment of
exactly 255 bytes (the documented ambiguous case: the literal length byte
would coincide with the `0xFF` run marker).  Mirrors the branch structure of
`rleEncodeF` exactly. -/
def hasLit255F : ℕ → List ℕ → Bool
  | 0, _ => false
  | _ + 1, [] => false
  | fuel + 1, x :: xs =>
      let run_length := min (1 + countLead x xs) 255
      if 4 ≤ run_length then hasLit255F fuel (List.drop run_length (x :: xs))
      else
        let lit_length := litLen (x :: xs) 255
        (lit_length == 255) || hasLit255F fuel (List.drop lit_length (x :: xs))

/-- Budget-instantiated wrapper for `hasLit255F`. -/
def hasLit255 (data : List ℕ) : Bool :=
  hasLit255F data.length data

/-- Length of the longest run of equal bytes in `l` (0 for the empty list).
A sequence "has no run of length ≥ 256" iff `maxRun l ≤ 255`. -/
def maxRun : List ℕ → ℕ
  | [] => 0
  | x :: xs => max (1 + countLead x xs) (maxRun xs)

theorem rleDecodeF_nil (fuel : ℕ) : rleDecodeF fuel [] = [] := by
  cases fuel <;> rfl

/-- Taking at most `1 + countLead x xs` elements of `x :: xs` yields copies
of `x`. -/
theorem take_cons_eq_replicate :
    ∀ (xs : List ℕ) (x k : ℕ), k ≤ 1 + countLead x xs →
      (x :: xs).take k = List.replicate k x := by
  intro xs
  induction xs with
  | nil =>
      intro x k hk
      have hk1 : k ≤ 1 := by simpa [countLead] using hk
      interval_cases k <;> rfl
  | cons y ys ih =>
      intro x k hk
      match k with
      | 0 => rfl
      | 1 => rfl
      | k + 2 =>
          by_cases hxy : y = x
          · subst hxy
            have hcl : countLead y (y :: ys) = countLead y ys + 1 := by
              simp [countLead]
            rw [hcl] at hk
            have h1 := ih y (k + 1) (by omega)
            simp only [List.take_succ_cons, List.replicate_succ] at h1 ⊢
            exact congrArg (y :: ·) h1
          · exfalso
            have hcl : countLead x (y :: ys) = 0 := by
              simp [countLead, hxy]
            omega

theorem litLen_le_length : ∀ (l : List ℕ) (b : ℕ), litLen l b ≤ l.length := by
  intro l
  induction l with
  | nil => intro b; simp [litLen]
  | cons x xs ih =>
      intro b
      match b with
      | 0 => simp [litLen]
      | b + 1 =>
          rw [litLen]
          split
          · simp
          · have := ih b
            simp only [List.length_cons]
            omega

theorem litLen_le_budget : ∀ (l : List ℕ) (b : ℕ), litLen l b ≤ b := by
  intro l
  induction l with
  | nil => intro b; simp [litLen]
  | cons x xs ih =>
      intro b
      match b with
      | 0 => simp [litLen]
      | b + 1 =>
          rw [litLen]
          split
          · omega
          · have := ih b
            omega

theorem litLen_pos {x : ℕ} {xs : List ℕ} (h : 1 + countLead x xs < 4) :
    1 ≤ litLen (x :: xs) 255 := by
  rw [litLen]
  have : ¬ (4 ≤ min (1 + countLead x xs) 4) := by omega
  rw [if_neg this]
  omega

/-- Decoding a complete run record expands it and continues. -/
theorem rleDecodeF_run (fuel n v : ℕ) (r : List ℕ) :
    rleDecodeF (fuel + 1) (255 :: n :: v :: r) =
      List.replicate n v ++ rleDecodeF fuel r := by
  rw [rleDecodeF]
  have hc : (255 : ℕ) = 255 ∧ 2 ≤ (n :: v :: r).length := by
    simp
  rw [if_pos hc]
  rfl

/-- Decoding a complete literal record (length byte below 255) copies the
literal bytes and continues. -/
theorem rleDecodeF_lit (fuel ll : ℕ) (lits r : List ℕ)
    (hll : ll ≠ 255) (hlen : lits.length = ll) :
    rleDecodeF (fuel + 1) (ll :: (lits ++ r)) =
      lits ++ rleDecodeF fuel r := by
  rw [rleDecodeF]
  have hc : ¬ (ll = 255 ∧ 2 ≤ (lits ++ r).length) := by
    intro h
    exact hll h.1
  rw [if_neg hc]
  have hle : ll ≤ (lits ++ r).length := by
    simp [List.length_append]
    omega
  rw [if_pos hle, List.take_left' hlen, List.drop_left' hlen]

/-- Core induction for C3: with a sufficient encoder budget and no literal
segment of exactly 255 bytes, decoding the encoder's output with any
sufficient decoder budget reproduces the input. -/
theorem rleDecodeF_rleEncodeF :
    ∀ (fuel : ℕ) (b : List ℕ), b.length ≤ fuel →
      hasLit255F fuel b = false →
      ∀ dfuel, (rleEncodeF fuel b).length ≤ dfuel →
        rleDecodeF dfuel (rleEncodeF fuel b) = b := by
  intro fuel
  induction fuel with
  | zero =>
      intro b hb _ dfuel _
      have : b = [] := List.length_eq_zero.mp (by omega)
      subst this
      simp [rleEncodeF, rleDecodeF_nil]
  | succ fuel ih =>
      intro b hb hlit dfuel hd
      match b with
      | [] => simp [rleEncodeF, rleDecodeF_nil]
      | x :: xs =>
          rw [rleEncodeF] at hd ⊢
          rw [hasLit255F] at hlit
          by_cases hrl : 4 ≤ min (1 + countLead x xs) 255
          · rw [if_pos hrl] at hd ⊢
            rw [if_pos hrl] at hlit
            set rl := min (1 + countLead x xs) 255 with hrldef
            have hrl1 : 1 ≤ rl := by omega
            have hlen : (List.drop rl (x :: xs)).length ≤ fuel := by
              simp only [List.length_drop, List.length_cons]
              simp only [List.length_cons] at hb
              omega
            obtain ⟨d, rfl⟩ : ∃ d, dfuel = d + 1 := by
              refine ⟨dfuel - 1, ?_⟩
              simp only [List.length_cons] at hd
              omega
            rw [rleDecodeF_run]
            have hErec : rleDecodeF d (rleEncodeF fuel (List.drop rl (x :: xs))) =
                List.drop rl (x :: xs) := by
              apply ih _ hlen hlit
              simp only [List.length_cons] at hd
              omega
            rw [hErec]
            have htake : (x :: xs).take rl = List.replicate rl x :=
              take_cons_eq_replicate xs x rl (by omega)
            rw [← htake, List.take_append_drop]
          · rw [if_neg hrl] at hd ⊢
            rw [if_neg hrl] at hlit
            set ll := litLen (x :: xs) 255 with hlldef
            have hll255 : ll ≠ 255 := by
              intro h
              rw [h] at hlit
              simp at hlit
            have hlitrec : hasLit255F fuel (List.drop ll (x :: xs)) = false := by
              rcases Bool.or_eq_false_iff.mp hlit with ⟨_, h2⟩
              exact h2
            have hlle : ll ≤ (x :: xs).length := litLen_le_length _ _
            have hll1 : 1 ≤ ll := litLen_pos (by omega)
            have hlen : (List.drop ll (x :: xs)).length ≤ fuel := by
              simp only [List.length_drop, List.length_cons]
              simp only [List.length_cons] at hb
              omega
            have htl : ((x :: xs).take ll).length = ll :=
              List.length_take_of_le hlle
            obtain ⟨d, rfl⟩ : ∃ d, dfuel = d + 1 := by
              refine ⟨dfuel - 1, ?_⟩
              simp only [List.length_cons, List.length_append] at hd
              omega
            rw [rleDecodeF_lit d ll _ _ hll255 htl]
            have hErec : rleDecodeF d (rleEncodeF fuel (List.drop ll (x :: xs))) =
                List.drop ll (x :: xs) := by
              apply ih _ hlen hlitrec
              simp only [List.length_cons, List.length_append, htl] at hd
              omega
            rw [hErec, List.take_append_drop]

/-- **C3.** For every byte sequence with no run of length ≥ 256 whose
encoding produces no literal segment of exactly 255 bytes (the documented
ambiguous edge case), RLE decoding inverts RLE encoding. -/
theorem rle_roundtrip (b : List ℕ) (hbyte : ∀ y ∈ b, y < 256)
    (hrun : maxRun b ≤ 255) (hlit : hasLit255 b = false) :
    decompress_rle (compress_rle b) = b := by
  unfold decompress_rle compress_rle
  exact rleDecodeF_rleEncodeF b.length b le_rfl hlit _ le_rfl

/-- Witness for C3 at the concrete byte sequence
`[1, 2, 3, 7, 7, 7, 7, 7, 9]` (one literal segment, one run record, one
final literal segment). -/
theorem rle_roundtrip_witness :
    decompress_rle (compress_rle [1, 2, 3, 7, 7, 7, 7, 7, 9]) =
      [1, 2, 3, 7, 7, 7, 7, 7, 9] :=
  rle_roundtrip [1, 2, 3, 7, 7, 7, 7, 7, 9] (by decide) (by decide) (by decide)

/-! ## 8-bit quantizer (`advcodec.cpp`, lines 67–94)

`quantize_8bit` computes `min`/`max` over the whole sequence, widens a
degenerate range (`max - min < 1e-8`) to `1.0`, normalizes each value,
clamps `normalized * 255` into `[0, 255]` and truncates to `uint8_t`.
`dequantize_8bit` maps a code back with `min + code/255 * (max - min)` —
note that the *decoder* always uses `max_val - min_val`, without the
degenerate-range widening.  Float arithmetic is idealized as exact `ℚ`
arithmetic (the claims under test are stated "subject to float rounding"). -/

/-- `*std::min_element(values.begin(), values.end())` for a non-empty list. -/
def listMinQ : List ℚ → ℚ
  | [] => 0
  | x :: xs => xs.foldl min x

/-- `*std::max_element(values.begin(), values.end())` for a non-empty list. -/
def listMaxQ : List ℚ → ℚ
  | [] => 0
  | x :: xs => xs.foldl max x

/-- `std::clamp(x, lo, hi)`. -/
def clampQ (x lo hi : ℚ) : ℚ := min (max x lo) hi

/-- `quantize_8bit`: returns the code list together with the observed
`out_min`/`out_max` (the empty input returns immediately, leaving the
caller's zero-initialized `min_val`/`max_val`).  `static_cast<uint8_t>` of a
clamped non-negative float truncates, i.e. takes the floor. -/
def quantize_8bit (values : List ℚ) : List ℕ × ℚ × ℚ :=
  match values with
  | [] => ([], 0, 0)
  | _ :: _ =>
      let out_min := listMinQ values
      let out_max := listMaxQ values
      let range := if out_max - out_min < 1 / 100000000 then 1 else out_max - out_min
      (values.map fun v => (⌊clampQ ((v - out_min) / range * 255) 0 255⌋).toNat,
        out_min, out_max)

/-- `dequantize_8bit`: `min_val + code/255 * (max_val - min_val)`. -/
def dequantize_8bit (quantized : List ℕ) (min_val max_val : ℚ) : List ℚ :=
  let range := max_val - min_val
  quantized.map fun q : ℕ => min_val + ((q : ℚ) / 255) * range

theorem foldl_min_le_init (l : List ℚ) (a : ℚ) : l.foldl min a ≤ a := by
  induction l generalizing a with
  | nil => exact le_refl a
  | cons y ys ih => exact le_trans (ih (min a y)) (min_le_left a y)

theorem foldl_min_le_mem (l : List ℚ) (a : ℚ) :
    ∀ x ∈ l, l.foldl min a ≤ x := by
  induction l generalizing a with
  | nil => intro x hx; cases hx
  | cons y ys ih =>
      intro x hx
      rcases List.mem_cons.mp hx with rfl | hx
      · exact le_trans (foldl_min_le_init ys (min a x)) (min_le_right a x)
      · exact ih (min a y) x hx

theorem le_foldl_max_init (l : List ℚ) (a : ℚ) : a ≤ l.foldl max a := by
  induction l generalizing a with
  | nil => exact le_refl a
  | cons y ys ih => exact le_trans (le_max_left a y) (ih (max a y))

theorem le_foldl_max_mem (l : List ℚ) (a : ℚ) :
    ∀ x ∈ l, x ≤ l.foldl max a := by
  induction l generalizing a with
  | nil => intro x hx; cases hx
  | cons y ys ih =>
      intro x hx
      rcases List.mem_cons.mp hx with rfl | hx
      · exact le_trans (le_max_right a x) (le_foldl_max_init ys (max a x))
      · exact ih (max a y) x hx

theorem listMinQ_le {f : List ℚ} {v : ℚ} (hv : v ∈ f) : listMinQ f ≤ v := by
  cases f with
  | nil => cases hv
  | cons x xs =>
      rcases List.mem_cons.mp hv with rfl | hv
      · exact foldl_min_le_init xs v
      · exact foldl_min_le_mem xs x v hv

theorem le_listMaxQ {f : List ℚ} {v : ℚ} (hv : v ∈ f) : v ≤ listMaxQ f := by
  cases f with
  | nil => cases hv
  | cons x xs =>
      rcases List.mem_cons.mp hv with rfl | hv
      · exact le_foldl_max_init xs v
      · exact le_foldl_max_mem xs x v hv

/-- One-element analysis of quantize-then-dequantize in the non-degenerate
range case: the reconstruction error is at most `range/255`, and values
equal to the observed minimum or maximum are reconstructed exactly. -/
theorem quant_dequant_elem {mn mx v : ℚ} (hmn : mn ≤ v) (hmx : v ≤ mx)
    (hr : 1 / 100000000 ≤ mx - mn) :
    |(mn + ((((⌊clampQ ((v - mn) / (mx - mn) * 255) 0 255⌋).toNat : ℚ)) / 255) * (mx - mn)) - v|
        ≤ (mx - mn) / 255
      ∧ (v = mn →
          mn + ((((⌊clampQ ((v - mn) / (mx - mn) * 255) 0 255⌋).toNat : ℚ)) / 255) * (mx - mn) = mn)
      ∧ (v = mx →
          mn + ((((⌊clampQ ((v - mn) / (mx - mn) * 255) 0 255⌋).toNat : ℚ)) / 255) * (mx - mn) = mx) := by
  have hr0 : (0 : ℚ) < mx - mn := lt_of_lt_of_le (by norm_num) hr
  set r : ℚ := mx - mn with hrdef
  set x : ℚ := (v - mn) / r * 255 with hxdef
  have hx0 : 0 ≤ x := by
    apply mul_nonneg _ (by norm_num)
    exact div_nonneg (by linarith) (le_of_lt hr0)
  have hx255 : x ≤ 255 := by
    have h1 : (v - mn) / r ≤ 1 := (div_le_one hr0).mpr (by linarith)
    calc x = (v - mn) / r * 255 := hxdef
    _ ≤ 1 * 255 := mul_le_mul_of_nonneg_right h1 (by norm_num)
    _ = 255 := by norm_num
  have hclamp : clampQ x 0 255 = x := by
    unfold clampQ
    rw [max_eq_left hx0, min_eq_left hx255]
  have hfl0 : (0 : ℤ) ≤ ⌊x⌋ := Int.floor_nonneg.mpr hx0
  have hcast : ((⌊x⌋.toNat : ℚ)) = (⌊x⌋ : ℚ) := by
    exact_mod_cast Int.toNat_of_nonneg hfl0
  have hxv : x / 255 * r = v - mn := by
    rw [hxdef]
    field_simp
    ring
  have hfloor_le : (⌊x⌋ : ℚ) ≤ x := Int.floor_le x
  have hlt_floor : x - 1 < (⌊x⌋ : ℚ) := by
    have := Int.lt_floor_add_one x
    linarith
  refine ⟨?_, ?_, ?_⟩
  · rw [hclamp, hcast]
    have hv' : v = mn + x / 255 * r := by linarith
    have hre : mn + (⌊x⌋ : ℚ) / 255 * r - v = ((⌊x⌋ : ℚ) - x) / 255 * r := by
      rw [hv']
      ring
    rw [abs_le, hre]
    have h1 : (0 : ℚ) ≤ ((⌊x⌋ : ℚ) - x + 1) * r := mul_nonneg (by linarith) hr0.le
    have h2 : (0 : ℚ) ≤ (x - (⌊x⌋ : ℚ)) * r := mul_nonneg (by linarith) hr0.le
    constructor
    · nlinarith [h1]
    · nlinarith [h2]
  · intro hv
    subst hv
    have hx : x = 0 := by rw [hxdef]; field_simp
    rw [hclamp, hcast, hx]
    norm_num
  · intro hv
    subst hv
    have hx : x = 255 := by
      rw [hxdef, hrdef]
      field_simp
    rw [hclamp, hcast, hx]
    have : (⌊(255 : ℚ)⌋ : ℚ) = 255 := by norm_num
    rw [this, hrdef]
    field_simp

/-- Amended C2, list level: for a non-empty sequence whose observed range is
at least the `1e-8` widening threshold, dequantize-after-quantize
reconstructs every element within `(max - min)/255` and reconstructs
elements equal to the observed minimum / maximum exactly. -/
theorem quantize_dequantize_amended (f : List ℚ) (hne : f ≠ [])
    (hr : 1 / 100000000 ≤ listMaxQ f - listMinQ f) (i : ℕ) (hi : i < f.length) :
    |(dequantize_8bit (quantize_8bit f).1 (quantize_8bit f).2.1
        (quantize_8bit f).2.2).getD i 0 - f.getD i 0|
      ≤ ((quantize_8bit f).2.2 - (quantize_8bit f).2.1) / 255
    ∧ (f.getD i 0 = (quantize_8bit f).2.1 →
        (dequantize_8bit (quantize_8bit f).1 (quantize_8bit f).2.1
          (quantize_8bit f).2.2).getD i 0 = (quantize_8bit f).2.1)
    ∧ (f.getD i 0 = (quantize_8bit f).2.2 →
        (dequantize_8bit (quantize_8bit f).1 (quantize_8bit f).2.1
          (quantize_8bit f).2.2).getD i 0 = (quantize_8bit f).2.2) := by
  match f, hne with
  | x :: xs, _ =>
      have hcond : ¬ (listMaxQ (x :: xs) - listMinQ (x :: xs) < 1 / 100000000) :=
        not_lt.mpr hr
      have hq : quantize_8bit (x :: xs) =
          ((x :: xs).map fun v =>
              (⌊clampQ ((v - listMinQ (x :: xs)) /
                  (listMaxQ (x :: xs) - listMinQ (x :: xs)) * 255) 0 255⌋).toNat,
            listMinQ (x :: xs), listMaxQ (x :: xs)) := by
        simp only [quantize_8bit, if_neg hcond]
      rw [hq]
      simp only [dequantize_8bit, List.map_map]
      have hlen : i < ((x :: xs).map fun v =>
          listMinQ (x :: xs) +
            ((((⌊clampQ ((v - listMinQ (x :: xs)) /
                (listMaxQ (x :: xs) - listMinQ (x :: xs)) * 255) 0 255⌋).toNat : ℚ)) / 255) *
              (listMaxQ (x :: xs) - listMinQ (x :: xs))).length := by
        simpa using hi
      rw [List.getD_eq_getElem _ _ (by simpa using hi), List.getD_eq_getElem _ _ hi]
      rw [List.getElem_map]
      simp only [Function.comp]
      have hv : (x :: xs)[i] ∈ (x :: xs) := List.getElem_mem hi
      exact quant_dequant_elem (listMinQ_le hv) (le_listMaxQ hv) hr

/-- The two-element rational sequence `[0, 1e-9]`: its range `1e-9` is
non-zero but below the quantizer's `1e-8` threshold, so the encoder divides
by the widened range `1.0` while the decoder multiplies by the true range. -/
def quantCexInput : List ℚ := [0, 1 / 1000000000]

/-- Counterexample to C2 as stated: on `[0, 1e-9]` the element equal to the
sequence maximum is reconstructed as `0` (code 0, not 255), violating both
the `(max-min)/255` error bound and exact reconstruction of the maximum. -/
theorem quantize_cex :
    ¬ (|(dequantize_8bit (quantize_8bit quantCexInput).1 (quantize_8bit quantCexInput).2.1
          (quantize_8bit quantCexInput).2.2).getD 1 0 - quantCexInput.getD 1 0|
        ≤ ((quantize_8bit quantCexInput).2.2 - (quantize_8bit quantCexInput).2.1) / 255)
    ∧ (dequantize_8bit (quantize_8bit quantCexInput).1 (quantize_8bit quantCexInput).2.1
          (quantize_8bit quantCexInput).2.2).getD 1 0 ≠ (quantize_8bit quantCexInput).2.2 := by
  have hval : (dequantize_8bit (quantize_8bit quantCexInput).1
      (quantize_8bit quantCexInput).2.1 (quantize_8bit quantCexInput).2.2).getD 1 0 = 0 := by
    norm_num [quantCexInput, quantize_8bit, dequantize_8bit, listMinQ, listMaxQ, clampQ,
      min_def, max_def]
  have hmn : (quantize_8bit quantCexInput).2.1 = 0 := by
    norm_num [quantCexInput, quantize_8bit, listMinQ, listMaxQ, min_def, max_def]
  have hmx : (quantize_8bit quantCexInput).2.2 = 1 / 1000000000 := by
    norm_num [quantCexInput, quantize_8bit, listMinQ, listMaxQ, min_def, max_def]
  have hin : quantCexInput.getD 1 0 = 1 / 1000000000 := by
    norm_num [quantCexInput]
  constructor
  · rw [hval, hin, hmx, hmn, zero_sub, abs_neg,
      abs_of_pos (by norm_num : (0 : ℚ) < 1 / 1000000000)]
    norm_num
  · rw [hval, hmx]
    norm_num

/-- Witness for amended C2 at the concrete sequence `[0, 1]`, index 1 (the
maximum element, reconstructed exactly from code 255). -/
theorem quantize_dequantize_amended_witness :
    |(dequantize_8bit (quantize_8bit [0, 1]).1 (quantize_8bit [0, 1]).2.1
        (quantize_8bit [0, 1]).2.2).getD 1 0 - ([0, 1] : List ℚ).getD 1 0|
      ≤ ((quantize_8bit [0, 1]).2.2 - (quantize_8bit [0, 1]).2.1) / 255
    ∧ (([0, 1] : List ℚ).getD 1 0 = (quantize_8bit [0, 1]).2.1 →
        (dequantize_8bit (quantize_8bit [0, 1]).1 (quantize_8bit [0, 1]).2.1
          (quantize_8bit [0, 1]).2.2).getD 1 0 = (quantize_8bit [0, 1]).2.1)
    ∧ (([0, 1] : List ℚ).getD 1 0 = (quantize_8bit [0, 1]).2.2 →
        (dequantize_8bit (quantize_8bit [0, 1]).1 (quantize_8bit [0, 1]).2.1
          (quantize_8bit [0, 1]).2.2).getD 1 0 = (quantize_8bit [0, 1]).2.2) :=
  quantize_dequantize_amended [0, 1] (by decide)
    (by norm_num [listMaxQ, listMinQ]) 1 (by decide)

/-! ## Float16 bit conversion (`advcodec.cpp` lines 27–64, `codec_4.cpp` lines 85–127)

Both files convert between IEEE-754 float32 and float16 purely on bit
patterns (`std::memcpy` in and out), so the model works on the `uint32_t`
and `uint16_t` bit patterns directly as `ℕ`.  The exponent arithmetic is
signed `int` arithmetic, modelled on `ℤ`. -/

/-- Bit masks as `%`/`/`: 8-bit mask. -/
theorem and_255 (a : ℕ) : a &&& 255 = a % 256 := by
  have h := Nat.and_pow_two_sub_one_eq_mod a 8
  norm_num at h
  exact h

/-- 10-bit mask. -/
theorem and_1023 (a : ℕ) : a &&& 1023 = a % 1024 := by
  have h := Nat.and_pow_two_sub_one_eq_mod a 10
  norm_num at h
  exact h

/-- 5-bit mask. -/
theorem and_31 (a : ℕ) : a &&& 31 = a % 32 := by
  have h := Nat.and_pow_two_sub_one_eq_mod a 5
  norm_num at h
  exact h

/-- 23-bit mask. -/
theorem and_8388607 (a : ℕ) : a &&& 8388607 = a % 8388608 := by
  have h := Nat.and_pow_two_sub_one_eq_mod a 23
  norm_num at h
  exact h

/-- Extracting the isolated bit 15 (`& 0x8000`) as division/modulo. -/
theorem and_32768_eq (a : ℕ) : a &&& 32768 = a / 32768 % 2 * 32768 := by
  have h := Nat.and_two_pow a 15
  rw [Nat.testBit_to_div_mod] at h
  norm_num at h
  rcases Nat.mod_two_eq_zero_or_one (a / 32768) with h2 | h2 <;>
    simp [h2] at h ⊢ <;> omega

/-- Bitwise `or` of disjoint fields is addition (bit 10 and below). -/
theorem or_mul_1024 {a b : ℕ} (h : b < 1024) : a * 1024 ||| b = a * 1024 + b := by
  have h' : b < 2 ^ 10 := lt_of_lt_of_le h (by norm_num)
  have h2 := (Nat.mul_add_lt_is_or h' a).symm
  have e : (2 : ℕ) ^ 10 = 1024 := by norm_num
  rw [e, mul_comm (1024 : ℕ) a] at h2
  exact h2

/-- Bitwise `or` of disjoint fields is addition (bit 15 and below). -/
theorem or_mul_32768 {a b : ℕ} (h : b < 32768) : a * 32768 ||| b = a * 32768 + b := by
  have h' : b < 2 ^ 15 := lt_of_lt_of_le h (by norm_num)
  have h2 := (Nat.mul_add_lt_is_or h' a).symm
  have e : (2 : ℕ) ^ 15 = 32768 := by norm_num
  rw [e, mul_comm (32768 : ℕ) a] at h2
  exact h2

/-- Bitwise `or` of disjoint fields is addition (bit 23 and below). -/
theorem or_mul_8388608 {a b : ℕ} (h : b < 8388608) :
    a * 8388608 ||| b = a * 8388608 + b := by
  have h' : b < 2 ^ 23 := lt_of_lt_of_le h (by norm_num)
  have h2 := (Nat.mul_add_lt_is_or h' a).symm
  have e : (2 : ℕ) ^ 23 = 8388608 := by norm_num
  rw [e, mul_comm (8388608 : ℕ) a] at h2
  exact h2

/-- Bitwise `or` of disjoint fields is addition (bit 31 and below). -/
theorem or_mul_2147483648 {a b : ℕ} (h : b < 2147483648) :
    a * 2147483648 ||| b = a * 2147483648 + b := by
  have h' : b < 2 ^ 31 := lt_of_lt_of_le h (by norm_num)
  have h2 := (Nat.mul_add_lt_is_or h' a).symm
  have e : (2 : ℕ) ^ 31 = 2147483648 := by norm_num
  rw [e, mul_comm (2147483648 : ℕ) a] at h2
  exact h2

/-- `f32_to_f16` (`advcodec.cpp`): sign from bit 31, exponent rebiased from
127 to 15, mantissa truncated to its top 10 bits; rebiased exponent `≤ 0`
flushes to signed zero, `≥ 31` saturates to signed infinity. -/
def f32_to_f16 (bits : ℕ) : ℕ :=
  let sign := (bits >>> 16) &&& 32768
  let exponent : ℤ := (((bits >>> 23) &&& 255 : ℕ) : ℤ) - 127 + 15
  let mantissa := (bits >>> 13) &&& 1023
  if exponent ≤ 0 then sign
  else if 31 ≤ exponent then sign ||| 31744
  else sign ||| (exponent.toNat <<< 10) ||| mantissa

/-- `f16_to_f32` (`advcodec.cpp`): exponent 0 decodes to signed zero,
exponent 31 to signed infinity (`0x7f800000`, mantissa dropped), otherwise
the bias shift and mantissa shift are inverted exactly. -/
def f16_to_f32 (value : ℕ) : ℕ :=
  let sign := (value &&& 32768) <<< 16
  let exponent : ℤ := (((value >>> 10) &&& 31 : ℕ) : ℤ)
  let mantissa := value &&& 1023
  if exponent = 0 then sign
  else if exponent = 31 then sign ||| 2139095040
  else sign ||| ((exponent - 15 + 127).toNat <<< 23) ||| (mantissa <<< 13)

/-- `float32_to_float16` (`codec_4.cpp`): same function, phrased with the
unshifted 23-bit mantissa and the exponent biased by 127 only. -/
def float32_to_float16 (f32 : ℕ) : ℕ :=
  let sign := (f32 >>> 16) &&& 32768
  let exp : ℤ := (((f32 >>> 23) &&& 255 : ℕ) : ℤ) - 127
  let mantissa := f32 &&& 8388607
  if exp ≤ -15 then sign
  else if 16 ≤ exp then sign ||| 31744
  else sign ||| ((exp + 15).toNat <<< 10) ||| (mantissa >>> 13)

/-- `float16_to_float32` (`codec_4.cpp`): exponent 0 with zero mantissa is
signed zero, nonzero mantissa returns `0.0f` (bit pattern 0); exponent 31
keeps the shifted mantissa alongside `0x7f800000`. -/
def float16_to_float32 (f16 : ℕ) : ℕ :=
  let sign := (f16 &&& 32768) <<< 16
  let exp : ℤ := (((f16 >>> 10) &&& 31 : ℕ) : ℤ)
  let mantissa := f16 &&& 1023
  if exp = 0 then (if mantissa = 0 then sign else 0)
  else if exp = 31 then sign ||| 2139095040 ||| (mantissa <<< 13)
  else sign ||| ((exp - 15 + 127).toNat <<< 23) ||| (mantissa <<< 13)

/-- Encoding a normal-range float32 (rebiased exponent in `[1, 30]`),
`advcodec.cpp` version: sign, rebiased exponent, truncated mantissa. -/
theorem f32_to_f16_inrange {s e m : ℕ} (hs : s < 2) (he1 : 113 ≤ e)
    (he2 : e ≤ 142) (hm : m < 8388608) :
    f32_to_f16 (s * 2147483648 + e * 8388608 + m) =
      s * 32768 + (e - 112) * 1024 + m / 8192 := by
  set b := s * 2147483648 + e * 8388608 + m with hbdef
  have hsign : (b >>> 16) &&& 32768 = s * 32768 := by
    rw [Nat.shiftRight_eq_div_pow, and_32768_eq]
    norm_num
    omega
  have hexp : (b >>> 23) &&& 255 = e := by
    rw [Nat.shiftRight_eq_div_pow, and_255]
    norm_num
    omega
  have hman : (b >>> 13) &&& 1023 = m / 8192 := by
    rw [Nat.shiftRight_eq_div_pow, and_1023]
    norm_num
    omega
  simp only [f32_to_f16, hsign, hexp, hman]
  rw [if_neg (by omega : ¬ ((e : ℤ) - 127 + 15 ≤ 0)),
    if_neg (by omega : ¬ (31 ≤ (e : ℤ) - 127 + 15))]
  have htn : ((e : ℤ) - 127 + 15).toNat = e - 112 := by omega
  rw [htn, Nat.shiftLeft_eq]
  have h10 : (e - 112) * 2 ^ 10 = (e - 112) * 1024 := by norm_num
  rw [h10, or_mul_32768 (by omega : (e - 112) * 1024 < 32768),
    show s * 32768 + (e - 112) * 1024 = (s * 32 + (e - 112)) * 1024 by ring,
    or_mul_1024 (by omega : m / 8192 < 1024)]

/-- Encoding a normal-range float32, `codec_4.cpp` version (identical
result). -/
theorem float32_to_float16_inrange {s e m : ℕ} (hs : s < 2) (he1 : 113 ≤ e)
    (he2 : e ≤ 142) (hm : m < 8388608) :
    float32_to_float16 (s * 2147483648 + e * 8388608 + m) =
      s * 32768 + (e - 112) * 1024 + m / 8192 := by
  set b := s * 2147483648 + e * 8388608 + m with hbdef
  have hsign : (b >>> 16) &&& 32768 = s * 32768 := by
    rw [Nat.shiftRight_eq_div_pow, and_32768_eq]
    norm_num
    omega
  have hexp : (b >>> 23) &&& 255 = e := by
    rw [Nat.shiftRight_eq_div_pow, and_255]
    norm_num
    omega
  have hman : b &&& 8388607 = m := by
    rw [and_8388607]
    omega
  simp only [float32_to_float16, hsign, hexp, hman]
  rw [if_neg (by omega : ¬ ((e : ℤ) - 127 ≤ -15)),
    if_neg (by omega : ¬ (16 ≤ (e : ℤ) - 127))]
  have htn : ((e : ℤ) - 127 + 15).toNat = e - 112 := by omega
  rw [htn, Nat.shiftLeft_eq, Nat.shiftRight_eq_div_pow]
  have h10 : (e - 112) * 2 ^ 10 = (e - 112) * 1024 := by norm_num
  have h13 : m / 2 ^ 13 = m / 8192 := by norm_num
  rw [h10, h13, or_mul_32768 (by omega : (e - 112) * 1024 < 32768),
    show s * 32768 + (e - 112) * 1024 = (s * 32 + (e - 112)) * 1024 by ring,
    or_mul_1024 (by omega : m / 8192 < 1024)]

/-- Decoding a normal-range float16 (`advcodec.cpp` version). -/
theorem f16_to_f32_inrange {s ex mn : ℕ} (hs : s < 2) (h1 : 1 ≤ ex)
    (h2 : ex ≤ 30) (hmn : mn < 1024) :
    f16_to_f32 (s * 32768 + ex * 1024 + mn) =
      s * 2147483648 + (ex + 112) * 8388608 + mn * 8192 := by
  set h : ℕ := s * 32768 + ex * 1024 + mn with hhdef
  have hsign : (h &&& 32768) <<< 16 = s * 2147483648 := by
    rw [and_32768_eq, Nat.shiftLeft_eq]
    norm_num
    omega
  have hexp : (h >>> 10) &&& 31 = ex := by
    rw [Nat.shiftRight_eq_div_pow, and_31]
    norm_num
    omega
  have hman : h &&& 1023 = mn := by
    rw [and_1023]
    omega
  simp only [f16_to_f32, hsign, hexp, hman]
  rw [if_neg (by omega : ¬ ((ex : ℤ) = 0)),
    if_neg (by omega : ¬ ((ex : ℤ) = 31))]
  have htn : ((ex : ℤ) - 15 + 127).toNat = ex + 112 := by omega
  rw [htn, Nat.shiftLeft_eq, Nat.shiftLeft_eq]
  have h23 : (ex + 112) * 2 ^ 23 = (ex + 112) * 8388608 := by norm_num
  have h13 : mn * 2 ^ 13 = mn * 8192 := by norm_num
  rw [h23, h13, or_mul_2147483648 (by omega : (ex + 112) * 8388608 < 2147483648),
    show s * 2147483648 + (ex + 112) * 8388608 = (s * 256 + (ex + 112)) * 8388608 by ring,
    or_mul_8388608 (by omega : mn * 8192 < 8388608)]

/-- Decoding a normal-range float16 (`codec_4.cpp` version, identical
result on these inputs). -/
theorem float16_to_float32_inrange {s ex mn : ℕ} (hs : s < 2) (h1 : 1 ≤ ex)
    (h2 : ex ≤ 30) (hmn : mn < 1024) :
    float16_to_float32 (s * 32768 + ex * 1024 + mn) =
      s * 2147483648 + (ex + 112) * 8388608 + mn * 8192 := by
  set h : ℕ := s * 32768 + ex * 1024 + mn with hhdef
  have hsign : (h &&& 32768) <<< 16 = s * 2147483648 := by
    rw [and_32768_eq, Nat.shiftLeft_eq]
    norm_num
    omega
  have hexp : (h >>> 10) &&& 31 = ex := by
    rw [Nat.shiftRight_eq_div_pow, and_31]
    norm_num
    omega
  have hman : h &&& 1023 = mn := by
    rw [and_1023]
    omega
  simp only [float16_to_float32, hsign, hexp, hman]
  rw [if_neg (by omega : ¬ ((ex : ℤ) = 0)),
    if_neg (by omega : ¬ ((ex : ℤ) = 31))]
  have htn : ((ex : ℤ) - 15 + 127).toNat = ex + 112 := by omega
  rw [htn, Nat.shiftLeft_eq, Nat.shiftLeft_eq]
  have h23 : (ex + 112) * 2 ^ 23 = (ex + 112) * 8388608 := by norm_num
  have h13 : mn * 2 ^ 13 = mn * 8192 := by norm_num
  rw [h23, h13, or_mul_2147483648 (by omega : (ex + 112) * 8388608 < 2147483648),
    show s * 2147483648 + (ex + 112) * 8388608 = (s * 256 + (ex + 112)) * 8388608 by ring,
    or_mul_8388608 (by omega : mn * 8192 < 8388608)]

/-- Encoding with rebiased exponent `≥ 31` saturates to `sign | 0x7c00`
(`advcodec.cpp` version). -/
theorem f32_to_f16_saturate {s e m : ℕ} (hs : s < 2) (he1 : 143 ≤ e)
    (he2 : e ≤ 255) (hm : m < 8388608) :
    f32_to_f16 (s * 2147483648 + e * 8388608 + m) = s * 32768 + 31744 := by
  set b := s * 2147483648 + e * 8388608 + m with hbdef
  have hsign : (b >>> 16) &&& 32768 = s * 32768 := by
    rw [Nat.shiftRight_eq_div_pow, and_32768_eq]
    norm_num
    omega
  have hexp : (b >>> 23) &&& 255 = e := by
    rw [Nat.shiftRight_eq_div_pow, and_255]
    norm_num
    omega
  simp only [f32_to_f16, hsign, hexp]
  rw [if_neg (by omega : ¬ ((e : ℤ) - 127 + 15 ≤ 0)),
    if_pos (by omega : 31 ≤ (e : ℤ) - 127 + 15),
    or_mul_32768 (by omega : 31744 < 32768)]

/-- Encoding with rebiased exponent `≥ 31` saturates (`codec_4.cpp`
version). -/
theorem float32_to_float16_saturate {s e m : ℕ} (hs : s < 2) (he1 : 143 ≤ e)
    (he2 : e ≤ 255) (hm : m < 8388608) :
    float32_to_float16 (s * 2147483648 + e * 8388608 + m) = s * 32768 + 31744 := by
  set b := s * 2147483648 + e * 8388608 + m with hbdef
  have hsign : (b >>> 16) &&& 32768 = s * 32768 := by
    rw [Nat.shiftRight_eq_div_pow, and_32768_eq]
    norm_num
    omega
  have hexp : (b >>> 23) &&& 255 = e := by
    rw [Nat.shiftRight_eq_div_pow, and_255]
    norm_num
    omega
  simp only [float32_to_float16, hsign, hexp]
  rw [if_neg (by omega : ¬ ((e : ℤ) - 127 ≤ -15)),
    if_pos (by omega : 16 ≤ (e : ℤ) - 127),
    or_mul_32768 (by omega : 31744 < 32768)]

/-- Encoding with rebiased exponent `≤ 0` flushes to the bare sign bit
(`advcodec.cpp` version). -/
theorem f32_to_f16_flush {s e m : ℕ} (hs : s < 2) (he : e ≤ 112)
    (hm : m < 8388608) :
    f32_to_f16 (s * 2147483648 + e * 8388608 + m) = s * 32768 := by
  set b := s * 2147483648 + e * 8388608 + m with hbdef
  have hsign : (b >>> 16) &&& 32768 = s * 32768 := by
    rw [Nat.shiftRight_eq_div_pow, and_32768_eq]
    norm_num
    omega
  have hexp : (b >>> 23) &&& 255 = e := by
    rw [Nat.shiftRight_eq_div_pow, and_255]
    norm_num
    omega
  simp only [f32_to_f16, hsign, hexp]
  rw [if_pos (by omega : (e : ℤ) - 127 + 15 ≤ 0)]

/-- Encoding with rebiased exponent `≤ 0` flushes (`codec_4.cpp` version). -/
theorem float32_to_float16_flush {s e m : ℕ} (hs : s < 2) (he : e ≤ 112)
    (hm : m < 8388608) :
    float32_to_float16 (s * 2147483648 + e * 8388608 + m) = s * 32768 := by
  set b := s * 2147483648 + e * 8388608 + m with hbdef
  have hsign : (b >>> 16) &&& 32768 = s * 32768 := by
    rw [Nat.shiftRight_eq_div_pow, and_32768_eq]
    norm_num
    omega
  have hexp : (b >>> 23) &&& 255 = e := by
    rw [Nat.shiftRight_eq_div_pow, and_255]
    norm_num
    omega
  simp only [float32_to_float16, hsign, hexp]
  rw [if_pos (by omega : (e : ℤ) - 127 ≤ -15)]

/-- Decoding the saturated half `sign | 0x7c00` yields signed infinity
`sign | 0x7f800000` (`advcodec.cpp` version). -/
theorem f16_to_f32_inf {s : ℕ} (hs : s < 2) :
    f16_to_f32 (s * 32768 + 31744) = s * 2147483648 + 2139095040 := by
  set h : ℕ := s * 32768 + 31744 with hhdef
  have hsign : (h &&& 32768) <<< 16 = s * 2147483648 := by
    rw [and_32768_eq, Nat.shiftLeft_eq]
    norm_num
    omega
  have hexp : (h >>> 10) &&& 31 = 31 := by
    rw [Nat.shiftRight_eq_div_pow, and_31]
    norm_num
    omega
  simp only [f16_to_f32, hsign, hexp]
  rw [if_neg (by omega : ¬ ((31 : ℕ) : ℤ) = 0),
    if_pos (by norm_num : (((31 : ℕ) : ℤ)) = 31),
    or_mul_2147483648 (by omega : 2139095040 < 2147483648)]

/-- Decoding the saturated half yields signed infinity with a zero mantissa
field (`codec_4.cpp` version). -/
theorem float16_to_float32_inf {s : ℕ} (hs : s < 2) :
    float16_to_float32 (s * 32768 + 31744) = s * 2147483648 + 2139095040 := by
  set h : ℕ := s * 32768 + 31744 with hhdef
  have hsign : (h &&& 32768) <<< 16 = s * 2147483648 := by
    rw [and_32768_eq, Nat.shiftLeft_eq]
    norm_num
    omega
  have hexp : (h >>> 10) &&& 31 = 31 := by
    rw [Nat.shiftRight_eq_div_pow, and_31]
    norm_num
    omega
  have hman : h &&& 1023 = 0 := by
    rw [and_1023]
    omega
  simp only [float16_to_float32, hsign, hexp, hman]
  rw [if_neg (by omega : ¬ ((31 : ℕ) : ℤ) = 0),
    if_pos (by norm_num : (((31 : ℕ) : ℤ)) = 31),
    or_mul_2147483648 (by omega : 2139095040 < 2147483648)]
  simp [Nat.shiftLeft_eq]

/-- Decoding a bare sign bit yields signed zero (`advcodec.cpp` version). -/
theorem f16_to_f32_zero {s : ℕ} (hs : s < 2) :
    f16_to_f32 (s * 32768) = s * 2147483648 := by
  have hsign : (s * 32768 &&& 32768) <<< 16 = s * 2147483648 := by
    rw [and_32768_eq, Nat.shiftLeft_eq]
    norm_num
    omega
  have hexp : ((s * 32768) >>> 10) &&& 31 = 0 := by
    rw [Nat.shiftRight_eq_div_pow, and_31]
    norm_num
    omega
  simp only [f16_to_f32, hsign, hexp]
  rw [if_pos (by norm_num : (((0 : ℕ) : ℤ)) = 0)]

/-- Decoding a bare sign bit yields signed zero (`codec_4.cpp` version; the
mantissa field is zero, so the signed-zero branch is taken). -/
theorem float16_to_float32_zero {s : ℕ} (hs : s < 2) :
    float16_to_float32 (s * 32768) = s * 2147483648 := by
  have hsign : (s * 32768 &&& 32768) <<< 16 = s * 2147483648 := by
    rw [and_32768_eq, Nat.shiftLeft_eq]
    norm_num
    omega
  have hexp : ((s * 32768) >>> 10) &&& 31 = 0 := by
    rw [Nat.shiftRight_eq_div_pow, and_31]
    norm_num
    omega
  have hman : s * 32768 &&& 1023 = 0 := by
    rw [and_1023]
    omega
  simp only [float16_to_float32, hsign, hexp, hman]
  rw [if_pos (by norm_num : (((0 : ℕ) : ℤ)) = 0)]
  simp

/-- **C8.** On every float32 bit pattern, for both implementations
(`f32_to_f16`/`f16_to_f32` in `advcodec.cpp` and
`float32_to_float16`/`float16_to_float32` in `codec_4.cpp`): if the
rebiased exponent (exponent field in `[113, 142]`, i.e. rebiased `[1, 30]`)
is in half-precision normal range, decode-after-encode returns the input
with its low 13 mantissa bits truncated to zero; a finite input beyond half
range (exponent field in `[143, 254]`) saturates to signed infinity
(`sign | 0x7f800000`); a subnormal-or-underflowing input (exponent field
`≤ 112`, rebiased `≤ 0`) flushes to signed zero. -/
theorem float16_roundtrip_cases (b : ℕ) (hb : b < 4294967296) :
    ((113 ≤ (b >>> 23) &&& 255 ∧ (b >>> 23) &&& 255 ≤ 142) →
        f16_to_f32 (f32_to_f16 b) = b / 8192 * 8192 ∧
        float16_to_float32 (float32_to_float16 b) = b / 8192 * 8192)
    ∧ ((143 ≤ (b >>> 23) &&& 255 ∧ (b >>> 23) &&& 255 ≤ 254) →
        f16_to_f32 (f32_to_f16 b) = b / 2147483648 * 2147483648 + 2139095040 ∧
        float16_to_float32 (float32_to_float16 b) =
          b / 2147483648 * 2147483648 + 2139095040)
    ∧ ((b >>> 23) &&& 255 ≤ 112 →
        f16_to_f32 (f32_to_f16 b) = b / 2147483648 * 2147483648 ∧
        float16_to_float32 (float32_to_float16 b) =
          b / 2147483648 * 2147483648) := by
  have hexpb : (b >>> 23) &&& 255 = b / 8388608 % 256 := by
    rw [Nat.shiftRight_eq_div_pow, and_255]
  set s := b / 2147483648 with hsdef
  set e := b / 8388608 % 256 with hedef
  set m := b % 8388608 with hmdef
  have hs : s < 2 := by omega
  have hm : m < 8388608 := by omega
  have hbsum : b = s * 2147483648 + e * 8388608 + m := by omega
  rw [hexpb]
  refine ⟨?_, ?_, ?_⟩
  · rintro ⟨h1, h2⟩
    constructor
    · rw [hbsum, f32_to_f16_inrange hs h1 h2 hm,
        f16_to_f32_inrange hs (by omega) (by omega) (by omega)]
      omega
    · rw [hbsum, float32_to_float16_inrange hs h1 h2 hm,
        float16_to_float32_inrange hs (by omega) (by omega) (by omega)]
      omega
  · rintro ⟨h1, h2⟩
    constructor
    · rw [hbsum, f32_to_f16_saturate hs h1 (by omega) hm, f16_to_f32_inf hs]
    · rw [hbsum, float32_to_float16_saturate hs h1 (by omega) hm,
        float16_to_float32_inf hs]
  · intro h1
    constructor
    · rw [hbsum, f32_to_f16_flush hs h1 hm, f16_to_f32_zero hs]
    · rw [hbsum, float32_to_float16_flush hs h1 hm, float16_to_float32_zero hs]

/-- Witness for C8 at the bit pattern of `1.0f` (`0x3f800000`, exponent
field 127, in normal range, low mantissa bits already zero). -/
theorem float16_roundtrip_witness :
    f16_to_f32 (f32_to_f16 1065353216) = 1065353216 ∧
    float16_to_float32 (float32_to_float16 1065353216) = 1065353216 := by
  have h := (float16_roundtrip_cases 1065353216 (by norm_num)).1
    (by constructor <;> decide)
  norm_num at h
  exact h

/-! ## Container models (`advcodec.cpp` lines 209–304, `codec_4.cpp` lines 183–256)

The compress entry points read the whole input file, split it at
`8 + json_header_size`, reinterpret the payload as float32/word values and
write a fixed header, the metadata bytes, and the compressed payload.
File-open failures are outside the model (a file is given as its byte
list). -/

theorem leParse_nil : leParse [] = 0 := rfl

theorem leParse_cons (b : ℕ) (l : List ℕ) :
    leParse (b :: l) = b + 256 * leParse l := rfl

theorem leSer_length (k n : ℕ) : (leSer k n).length = k := by
  induction k generalizing n with
  | zero => rfl
  | succ k ih => simp [leSer, ih]

/-- Round trip of the little-endian field serialization: a `k`-byte field
stores `n % 256^k`. -/
theorem leParse_leSer (k n : ℕ) : leParse (leSer k n) = n % 256 ^ k := by
  induction k generalizing n with
  | zero => simp [leSer, leParse_nil, Nat.mod_one]
  | succ k ih =>
      rw [leSer, leParse_cons, ih]
      have h : 256 ^ (k + 1) = 256 * 256 ^ k := by ring
      rw [h, Nat.mod_mul]

/-- Outcome of a compress call: `err` models `return false`, `oob` marks an
out-of-bounds buffer access (undefined behavior in the source), `ok`
carries the bytes written to the output file. -/
inductive COut
  | err : COut
  | oob : COut
  | ok : List ℕ → COut
deriving DecidableEq

/-- The output bytes of a successful compress outcome. -/
def getOk : COut → List ℕ
  | .ok l => l
  | _ => []

/-- `OptimizedLLMCodec::compress_lossless` (`codec_4.cpp`, lines 183–256)
with the entropy backend abstracted as `zstd` (the claims below hold for
every backend).  Checks `file_size < 8` and `8 + header_size > file_size`
(both `return false`); a payload that is not a multiple of 4 bytes makes
`std::memcpy(u32.data(), tensor_bytes.data(), tensor_bytes.size())` write
past the `num_floats`-word buffer — undefined behavior, marked `oob`.  An
empty compressed buffer (backend failure) also returns `false`.  On
success the output is: packed `Header {original_size, json_header_size,
num_floats, num_blocks, compressed_tensor_size}`, the metadata bytes, a
packed `BlockHeader {compressed_size, original_size}`, the compressed
bytes. -/
def compress_lossless_model (zstd : List ℕ → List ℕ) (file : List ℕ) : COut :=
  if file.length < 8 then .err
  else
    let header_size := leParse (file.take 8)
    if 8 + header_size > file.length then .err
    else
      let header_data := file.take (8 + header_size)
      let tensor_bytes := file.drop (8 + header_size)
      if tensor_bytes.length % 4 ≠ 0 then .oob
      else
        let u32 := bytesToWords tensor_bytes
        let compressed := zstd (wordsToBytes (xor_delta_encode_u32 u32))
        if compressed = [] then .err
        else
          .ok (leSer 8 file.length ++ leSer 8 header_data.length ++
            leSer 4 u32.length ++ leSer 4 1 ++
            leSer 8 (compressed.length + 16) ++
            header_data ++
            leSer 8 compressed.length ++ leSer 8 (u32.length * 4) ++
            compressed)

/-- Outcome of the input handling of the lossy `compress`. -/
inductive SplitCheck
  | err : SplitCheck
  | oob : SplitCheck
  | proceeds : SplitCheck
deriving DecidableEq

/-- Models the input handling of `LLMCodec::compress` (`advcodec.cpp`,
lines 229–239): the only guarded failure is `file_size < 8`.  A metadata
length prefix extending past the end of the file makes the `std::vector`
range constructor `file_data.begin() + 8 + json_header_size` read past the
buffer (undefined behavior), and a tensor payload that is not a multiple of
4 bytes makes `std::memcpy(floats.data(), tensor_bytes.data(),
tensor_bytes.size())` write past the `num_floats`-float buffer (undefined
behavior).  Past those lines the function proceeds to the transform stages
and, with a writable output, returns `true`. -/
def advcodec_compress_check (file : List ℕ) : SplitCheck :=
  if file.length < 8 then .err
  else
    let json_header_size := leParse (file.take 8)
    if file.length < 8 + json_header_size then .oob
    else
      let tensor_bytes := file.drop (8 + json_header_size)
      if tensor_bytes.length % 4 ≠ 0 then .oob
      else .proceeds

/-- A 10-byte input whose metadata length prefix declares `L = 100`. -/
def shortMetaFile : List ℕ := [100, 0, 0, 0, 0, 0, 0, 0, 1, 2]

/-- **C7** (failing input): on a file shorter than `8 + L`, codec_4's
`compress_lossless` returns failure as the claim states, but advcodec's
`compress` has no such check — it reads past the end of the buffer
(undefined behavior) instead of returning a `FormatError`. -/
theorem splitter_short_file_divergence :
    advcodec_compress_check shortMetaFile = SplitCheck.oob ∧
    advcodec_compress_check shortMetaFile ≠ SplitCheck.err ∧
    compress_lossless_model (fun l => l) shortMetaFile = COut.err := by
  refine ⟨by decide, by decide, by decide⟩

/-- A 13-byte input: `L = 0`, so the tensor payload is 5 bytes, not a
multiple of 4. -/
def oddPayloadFile : List ℕ := [0, 0, 0, 0, 0, 0, 0, 0, 9, 9, 9, 9, 9]

/-- **C6** (failing input): neither tool checks that the payload length is
a multiple of 4; on a 5-byte payload both proceed into a buffer-overflowing
`memcpy` (undefined behavior) instead of failing with a `FormatError`. -/
theorem payload_remainder_divergence :
    advcodec_compress_check oddPayloadFile = SplitCheck.oob ∧
    compress_lossless_model (fun l => l) oddPayloadFile = COut.oob := by
  refine ⟨by decide, by decide⟩

/-- A 14-byte input: prefix `L = 2`, two metadata bytes, four payload
bytes. -/
def metaFile : List ℕ := [2, 0, 0, 0, 0, 0, 0, 0, 170, 187, 1, 2, 3, 4]

/-- **C9 counterexample**: on `metaFile`, the metadata section that
`compress_lossless` writes after its 32-byte fixed header *does* replicate
the original 8-byte length prefix — its first 8 bytes are exactly that
prefix — and the stored `json_header_size` field is `10 = 8 + L`, not
`L = 2`.  This refutes the claim that the lossless metadata bytes omit the
prefix. -/
theorem lossless_metadata_cex :
    ((getOk (compress_lossless_model (fun l => l) metaFile)).drop 32).take 8 =
      metaFile.take 8 ∧
    metaFile.take 8 = [2, 0, 0, 0, 0, 0, 0, 0] ∧
    leParse (((getOk (compress_lossless_model (fun l => l) metaFile)).drop 8).take 8) =
      10 := by
  refine ⟨by decide, by decide, by decide⟩

/-- Dropping a known-length block plus `k` more elements. -/
theorem drop_append_len {l1 : List ℕ} (l2 : List ℕ) {n k : ℕ}
    (h : l1.length = n) : (l1 ++ l2).drop (n + k) = l2.drop k := by
  subst h
  rw [← List.drop_drop, List.drop_left]

/-- Amended C9: for every backend and every input accepted by
`compress_lossless`, the metadata section written after the 32-byte fixed
header is `file.take (8 + L)` — the prefix-inclusive metadata block — so it
*does* begin with the original 8-byte length prefix, and the stored
`json_header_size` field holds `8 + L`, the byte count of that section
(the lossy format instead stores `L` and writes `8 + L` metadata bytes). -/
theorem lossless_metadata_layout (zstd : List ℕ → List ℕ) (file out : List ℕ)
    (hout : compress_lossless_model zstd file = COut.ok out) :
    (out.drop 32).take (8 + leParse (file.take 8)) =
      file.take (8 + leParse (file.take 8))
    ∧ (out.drop 32).take 8 = file.take 8
    ∧ (file.length < 18446744073709551616 →
        leParse ((out.drop 8).take 8) = 8 + leParse (file.take 8)) := by
  simp only [compress_lossless_model] at hout
  split_ifs at hout with h1 h2 h3 h4
  rw [COut.ok.injEq] at hout
  set L := leParse (file.take 8) with hL
  set meta := file.take (8 + L) with hmeta
  set words := bytesToWords (file.drop (8 + L)) with hwords
  set z := zstd (wordsToBytes (xor_delta_encode_u32 words)) with hz
  have hout' : out = leSer 8 file.length ++
      (leSer 8 meta.length ++ (leSer 4 words.length ++ (leSer 4 1 ++
      (leSer 8 (z.length + 16) ++ (meta ++ (leSer 8 z.length ++
      (leSer 8 (words.length * 4) ++ z))))))) := by
    rw [← hout]
    simp [List.append_assoc]
  have hmlen : meta.length = 8 + L := by
    rw [hmeta, List.length_take]
    omega
  have hd32 : out.drop 32 = meta ++ (leSer 8 z.length ++
      (leSer 8 (words.length * 4) ++ z)) := by
    rw [hout',
      show (32 : ℕ) = 8 + 24 from rfl, drop_append_len _ (leSer_length 8 _),
      show (24 : ℕ) = 8 + 16 from rfl, drop_append_len _ (leSer_length 8 _),
      show (16 : ℕ) = 4 + 12 from rfl, drop_append_len _ (leSer_length 4 _),
      show (12 : ℕ) = 4 + 8 from rfl, drop_append_len _ (leSer_length 4 _),
      show (8 : ℕ) = 8 + 0 from rfl, drop_append_len _ (leSer_length 8 _),
      List.drop_zero]
  refine ⟨?_, ?_, ?_⟩
  · rw [hd32, List.take_left' hmlen]
  · rw [hd32, List.take_append_of_le_length (by omega), hmeta,
      List.take_take]
    congr 1
    omega
  · intro hbound
    rw [hout', show (8 : ℕ) = 8 + 0 from rfl,
      drop_append_len _ (leSer_length 8 _), List.drop_zero,
      List.take_left' (leSer_length 8 _), leParse_leSer, hmlen]
    have : 8 + L < 256 ^ 8 := by
      have h256 : (256 : ℕ) ^ 8 = 18446744073709551616 := by norm_num
      omega
    exact Nat.mod_eq_of_lt this

/-- Witness for amended C9 at the concrete input `metaFile` with the
identity backend. -/
theorem lossless_metadata_layout_witness :
    ((getOk (compress_lossless_model (fun l => l) metaFile)).drop 32).take
        (8 + leParse (metaFile.take 8)) =
      metaFile.take (8 + leParse (metaFile.take 8))
    ∧ ((getOk (compress_lossless_model (fun l => l) metaFile)).drop 32).take 8 =
      metaFile.take 8
    ∧ (metaFile.length < 18446744073709551616 →
        leParse (((getOk (compress_lossless_model (fun l => l) metaFile)).drop 8).take 8) =
          8 + leParse (metaFile.take 8)) :=
  lossless_metadata_layout (fun l => l) metaFile
    (getOk (compress_lossless_model (fun l => l) metaFile)) (by decide)

/-! ## Lossy decompressor (`advcodec.cpp`, lines 306–365)

`decompress` reads, in order: the packed 32-byte `Header`, `8 +
json_header_size` metadata bytes, an 8-byte `compressed_size`, and that
many compressed bytes.  None of the reads is checked: a short read leaves
the rest of the zero-initialized destination buffer as zeros and sets the
stream's failbit, and the function still proceeds and returns `true`.  The
8-bit dequantization stage (float arithmetic) is abstracted as a parameter
`deq`; the float16 stage is pure bit manipulation and is modelled
exactly. -/

/-- An opened `std::ifstream`: the file bytes, the read position, and the
fail state. -/
structure ByteStream where
  data : List ℕ
  pos : ℕ
  failed : Bool
deriving DecidableEq

/-- `input.read(buffer, n)` into an `n`-byte zero-initialized buffer: a
healthy stream transfers the available bytes (at most `n`), leaves the rest
of the buffer zero and sets the failbit on a short read; a failed stream
transfers nothing. -/
def sread (s : ByteStream) (n : ℕ) : List ℕ × ByteStream :=
  if s.failed then (List.replicate n 0, s)
  else if n ≤ s.data.length - s.pos then
    ((s.data.drop s.pos).take n, ⟨s.data, s.pos + n, false⟩)
  else
    ((s.data.drop s.pos) ++ List.replicate (n - (s.data.length - s.pos)) 0,
      ⟨s.data, s.data.length, true⟩)

/-- The float16 branch of `decompress`: pair the RLE-decompressed bytes
into `uint16_t` values, convert each to a float32 bit pattern, and
serialize the float32 buffer back to bytes (`std::memcpy`). -/
def f16ExpandBytes (f16_bytes : List ℕ) : List ℕ :=
  wordsToBytes ((bytesToU16 f16_bytes).map f16_to_f32)

/-- The part of `decompress` after the 32-byte header read: `hdrBytes` are
the header bytes, `s` the stream positioned after them.  Extracts
`json_header_size` (offset 8), `compression_method` (offset 20),
`min_value`/`max_value` bytes (offsets 24/28); reads the metadata block,
the compressed size and the compressed bytes; reverses the code transforms;
returns the output bytes (`header ++ tensor_bytes`), the return value
(`true` — no failure path exists past the file-open checks), and the final
failbit. -/
def advDecompressTail (deq : List ℕ → List ℕ → List ℕ → List ℕ)
    (hdrBytes : List ℕ) (s : ByteStream) : List ℕ × Bool × Bool :=
  let json_header_size := leParse ((hdrBytes.drop 8).take 8)
  let compression_method := leParse ((hdrBytes.drop 20).take 4)
  let min_bytes := (hdrBytes.drop 24).take 4
  let max_bytes := (hdrBytes.drop 28).take 4
  let r2 := sread s (8 + json_header_size)
  let r3 := sread r2.2 8
  let r4 := sread r3.2 (leParse r3.1)
  let tensor_bytes :=
    if compression_method = 1 then
      deq (delta_decode_varbyte (decompress_rle r4.1)) min_bytes max_bytes
    else
      f16ExpandBytes (decompress_rle r4.1)
  (r2.1 ++ tensor_bytes, true, r4.2.failed)

/-- `LLMCodec::decompress` on an opened input file. -/
def advDecompressRun (deq : List ℕ → List ℕ → List ℕ → List ℕ)
    (file : List ℕ) : List ℕ × Bool × Bool :=
  let r1 := sread ⟨file, 0, false⟩ 32
  advDecompressTail deq r1.1 r1.2

/-- A 48-byte container: a 32-byte header with `json_header_size = 0` and
`compression_method = 0`, 8 metadata bytes, and a declared
`compressed_size` of 100 with no compressed bytes following. -/
def truncatedContainer : List ℕ :=
  List.replicate 32 0 ++ List.replicate 8 0 ++ [100, 0, 0, 0, 0, 0, 0, 0]

/-- **C5** (failing input): on a container whose declared `compressed_size`
(100) exceeds the remaining bytes (0), the final read is short (failbit
set), yet `decompress` returns `true` — exit code 0 — instead of failing
with a `FormatError`. -/
theorem decompress_truncated_returns_success :
    (advDecompressRun (fun _ _ _ => []) truncatedContainer).2 = (true, true) := by
  decide

/-- Taking a known-length block plus `k` more elements. -/
theorem take_append_len {l1 : List ℕ} (l2 : List ℕ) {n k : ℕ}
    (h : l1.length = n) : (l1 ++ l2).take (n + k) = l1 ++ l2.take k := by
  subst h
  exact List.take_append k

/-- Two streams that agree beyond the 32-byte header region (same position
past it, same fail state, same bytes from offset 32 on, same length). -/
def StreamSim (s1 s2 : ByteStream) : Prop :=
  s1.pos = s2.pos ∧ s1.failed = s2.failed ∧
    s1.data.drop 32 = s2.data.drop 32 ∧ s1.data.length = s2.data.length ∧
    32 ≤ s1.pos ∧ s1.pos ≤ s1.data.length

/-- Reading from similar streams yields equal bytes and similar streams. -/
theorem sread_congr {s1 s2 : ByteStream} (n : ℕ) (h : StreamSim s1 s2) :
    (sread s1 n).1 = (sread s2 n).1 ∧ StreamSim (sread s1 n).2 (sread s2 n).2 := by
  obtain ⟨hpos, hf, hdrop, hlen, hge, hple⟩ := h
  have hdp : s1.data.drop s1.pos = s2.data.drop s2.pos := by
    have h1 : s1.data.drop s1.pos = (s1.data.drop 32).drop (s1.pos - 32) := by
      rw [List.drop_drop]
      congr 1
      omega
    have h2 : s2.data.drop s2.pos = (s2.data.drop 32).drop (s2.pos - 32) := by
      rw [List.drop_drop]
      congr 1
      omega
    rw [h1, h2, hdrop, hpos]
  rcases s1 with ⟨d1, p1, f1⟩
  rcases s2 with ⟨d2, p2, f2⟩
  simp only at hpos hf hdrop hlen hge hple hdp
  subst hpos
  subst hf
  unfold sread StreamSim
  simp only [hlen, hdp]
  split_ifs with hc1 hc2 <;>
    refine ⟨by rfl, ?_, ?_, ?_, ?_, ?_, ?_⟩ <;> dsimp only <;>
      first | rfl | exact hdrop | omega

/-- The tail of `decompress` depends on the header bytes only through the
four fields it extracts. -/
theorem advDecompressTail_fields (deq : List ℕ → List ℕ → List ℕ → List ℕ)
    (h1B h2B : List ℕ) (s : ByteStream)
    (e1 : (h1B.drop 8).take 8 = (h2B.drop 8).take 8)
    (e2 : (h1B.drop 20).take 4 = (h2B.drop 20).take 4)
    (e3 : (h1B.drop 24).take 4 = (h2B.drop 24).take 4)
    (e4 : (h1B.drop 28).take 4 = (h2B.drop 28).take 4) :
    advDecompressTail deq h1B s = advDecompressTail deq h2B s := by
  simp only [advDecompressTail, e1, e2, e3, e4]

/-- The tail of `decompress` writes the same output bytes on similar
streams. -/
theorem advDecompressTail_congr (deq : List ℕ → List ℕ → List ℕ → List ℕ)
    (hdrBytes : List ℕ) {s1 s2 : ByteStream} (h : StreamSim s1 s2) :
    (advDecompressTail deq hdrBytes s1).1 = (advDecompressTail deq hdrBytes s2).1 := by
  obtain ⟨o2, hsim2⟩ := sread_congr (8 + leParse ((hdrBytes.drop 8).take 8)) h
  obtain ⟨o3, hsim3⟩ := sread_congr 8 hsim2
  obtain ⟨o4, _⟩ := sread_congr
    (leParse ((sread (sread s1 (8 + leParse ((hdrBytes.drop 8).take 8))).2 8).1)) hsim3
  simp only [advDecompressTail]
  rw [← o2, ← o3, ← o4]

/-- **C10.** The lossy decompressor never reads the header fields
`original_size` (bytes 0–7) and `num_tensors` (bytes 16–19): two container
files that differ only in those two fields produce byte-identical output
files, for every dequantization stage.  (`a`/`a'` are the two
`original_size` fields, `b` the `json_header_size` field, `c`/`c'` the two
`num_tensors` fields, `d` the `compression_method`/`min_value`/`max_value`
fields, `rest` everything after the fixed header.) -/
theorem decompress_ignores_unused_header_fields
    (deq : List ℕ → List ℕ → List ℕ → List ℕ)
    (a a' b c c' d rest : List ℕ)
    (ha : a.length = 8) (ha' : a'.length = 8) (hb : b.length = 8)
    (hc : c.length = 4) (hc' : c'.length = 4) (hd : d.length = 12) :
    (advDecompressRun deq (a ++ (b ++ (c ++ (d ++ rest))))).1 =
      (advDecompressRun deq (a' ++ (b ++ (c' ++ (d ++ rest))))).1 := by
  have hr1 : ∀ (x y : List ℕ), x.length = 8 → y.length = 4 →
      sread ⟨x ++ (b ++ (y ++ (d ++ rest))), 0, false⟩ 32 =
        (x ++ (b ++ (y ++ d)),
          ⟨x ++ (b ++ (y ++ (d ++ rest))), 32, false⟩) := by
    intro x y hx hy
    unfold sread
    simp only [Bool.false_eq_true, if_false, List.drop_zero, Nat.sub_zero]
    rw [if_pos (by simp only [List.length_append, hx, hb, hy, hd]; omega)]
    rw [show (32 : ℕ) = 8 + 24 from rfl, take_append_len _ hx,
      show (24 : ℕ) = 8 + 16 from rfl, take_append_len _ hb,
      show (16 : ℕ) = 4 + 12 from rfl, take_append_len _ hy,
      show (12 : ℕ) = 12 + 0 from rfl, take_append_len _ hd,
      List.take_zero, List.append_nil]
  have hfields : ∀ (x y : List ℕ), x.length = 8 → y.length = 4 →
      (((x ++ (b ++ (y ++ d))).drop 8).take 8 = b) ∧
      (((x ++ (b ++ (y ++ d))).drop 20).take 4 = d.take 4) ∧
      (((x ++ (b ++ (y ++ d))).drop 24).take 4 = (d.drop 4).take 4) ∧
      (((x ++ (b ++ (y ++ d))).drop 28).take 4 = (d.drop 8).take 4) := by
    intro x y hx hy
    refine ⟨?_, ?_, ?_, ?_⟩
    · rw [show (8 : ℕ) = 8 + 0 from rfl, drop_append_len _ hx, List.drop_zero,
        List.take_left' hb]
    · rw [show (20 : ℕ) = 8 + 12 from rfl, drop_append_len _ hx,
        show (12 : ℕ) = 8 + 4 from rfl, drop_append_len _ hb,
        show (4 : ℕ) = 4 + 0 from rfl, drop_append_len _ hy, List.drop_zero]
    · rw [show (24 : ℕ) = 8 + 16 from rfl, drop_append_len _ hx,
        show (16 : ℕ) = 8 + 8 from rfl, drop_append_len _ hb,
        show (8 : ℕ) = 4 + 4 from rfl, drop_append_len _ hy]
    · rw [show (28 : ℕ) = 8 + 20 from rfl, drop_append_len _ hx,
        show (20 : ℕ) = 8 + 12 from rfl, drop_append_len _ hb,
        show (12 : ℕ) = 4 + 8 from rfl, drop_append_len _ hy]
  have hdropA : (a ++ (b ++ (c ++ (d ++ rest)))).drop 32 = rest := by
    rw [show (32 : ℕ) = 8 + 24 from rfl, drop_append_len _ ha,
      show (24 : ℕ) = 8 + 16 from rfl, drop_append_len _ hb,
      show (16 : ℕ) = 4 + 12 from rfl, drop_append_len _ hc,
      show (12 : ℕ) = 12 + 0 from rfl, drop_append_len _ hd, List.drop_zero]
  have hdropA' : (a' ++ (b ++ (c' ++ (d ++ rest)))).drop 32 = rest := by
    rw [show (32 : ℕ) = 8 + 24 from rfl, drop_append_len _ ha',
      show (24 : ℕ) = 8 + 16 from rfl, drop_append_len _ hb,
      show (16 : ℕ) = 4 + 12 from rfl, drop_append_len _ hc',
      show (12 : ℕ) = 12 + 0 from rfl, drop_append_len _ hd, List.drop_zero]
  obtain ⟨f1a, f2a, f3a, f4a⟩ := hfields a c ha hc
  obtain ⟨f1b, f2b, f3b, f4b⟩ := hfields a' c' ha' hc'
  simp only [advDecompressRun]
  rw [hr1 a c ha hc, hr1 a' c' ha' hc']
  dsimp only
  rw [advDecompressTail_fields deq (a' ++ (b ++ (c' ++ d))) (a ++ (b ++ (c ++ d)))
    ⟨a' ++ (b ++ (c' ++ (d ++ rest))), 32, false⟩
    (by rw [f1a, f1b]) (by rw [f2a, f2b]) (by rw [f3a, f3b]) (by rw [f4a, f4b])]
  apply advDecompressTail_congr
  refine ⟨rfl, rfl, ?_, ?_, ?_, ?_⟩
  · rw [hdropA, hdropA']
  · simp only [List.length_append, ha, ha', hb, hc, hc', hd]
  · exact le_rfl
  · simp only [List.length_append, ha, hb, hc, hd]
    omega

/-- Witness for C10: two 44-byte containers differing only in their
`original_size` and `num_tensors` fields decompress to the same bytes. -/
theorem decompress_ignores_unused_header_fields_witness :
    (advDecompressRun (fun _ _ _ => [])
      ([1, 0, 0, 0, 0, 0, 0, 0] ++ ([0, 0, 0, 0, 0, 0, 0, 0] ++
        ([7, 7, 7, 7] ++ (List.replicate 12 0 ++ [0, 0, 0, 0, 0, 0, 0, 0, 0, 0, 0, 0]))))).1 =
      (advDecompressRun (fun _ _ _ => [])
        ([2, 3, 4, 5, 6, 7, 8, 9] ++ ([0, 0, 0, 0, 0, 0, 0, 0] ++
          ([9, 9, 9, 9] ++ (List.replicate 12 0 ++ [0, 0, 0, 0, 0, 0, 0, 0, 0, 0, 0, 0]))))).1 :=
  decompress_ignores_unused_header_fields (fun _ _ _ => [])
    [1, 0, 0, 0, 0, 0, 0, 0] [2, 3, 4, 5, 6, 7, 8, 9] [0, 0, 0, 0, 0, 0, 0, 0]
    [7, 7, 7, 7] [9, 9, 9, 9] (List.replicate 12 0)
    [0, 0, 0, 0, 0, 0, 0, 0, 0, 0, 0, 0]
    (by decide) (by decide) (by decide) (by decide) (by decide) (by decide)

end LabWork03
